import Mathlib

deriving instance DecidableEq for Except

/-!
Verification of the segmented append-only key-value store (`datastore` package)
and the least-traffic load balancer of this repository, via a shallow embedding
of the Go source into Lean.

Conventions of the embedding:
* byte strings (Go `string` keys/values, file contents) are `List Nat`;
* the file system of the store's single directory is an association list from
  file name to content; a write through an `O_APPEND` handle appends to the
  file currently at that path (and is lost when the file was unlinked);
* Go `map[string]int64` indices are association lists updated in place;
* fallible operations return `Except Err` results, paired with the updated
  in-memory store and file system where the Go code mutates them.
-/

namespace Datastore

abbrev Bytes := List Nat

/-- One key-value record, the Go `entry` struct of the datastore package. -/
structure entry where
  key : Bytes
  value : Bytes
deriving DecidableEq, Repr

/-- Modelled from the spec: the record codec (`entry.Encode`) lives in a
datastore source file that is not part of `src/`; per spec §4.1 the encoding
is self-framing, so we frame each field with an explicit length element. -/
def entry.Encode (e : entry) : Bytes :=
  e.key.length :: (e.key ++ e.value.length :: e.value)

/-- Result of decoding one record from the head of a byte stream. -/
inductive DecodeResult where
  | eof
  | malformed
  | ok (e : entry) (n : Nat)
deriving DecidableEq, Repr

/-- Modelled from the spec: `entry.DecodeFromReader` is in a datastore source
file not present under `src/`; per spec §4.1 it fails with `END` (Go `io.EOF`)
when the stream ends cleanly at a record boundary and with `MALFORMED` on
truncation, and otherwise returns the record plus the bytes consumed. -/
def decodeFrom (bs : Bytes) : DecodeResult :=
  match bs with
  | [] => .eof
  | kl :: rest =>
    if kl ≤ rest.length then
      match rest.drop kl with
      | [] => .malformed
      | vl :: rest2 =>
        if vl ≤ rest2.length then
          .ok ⟨rest.take kl, rest2.take vl⟩ (1 + kl + (1 + vl))
        else .malformed
    else .malformed

theorem encode_length (e : entry) :
    e.Encode.length = 1 + e.key.length + (1 + e.value.length) := by
  simp [entry.Encode]; omega

/-- Round-trip law of the codec: decoding the head of `e.Encode ++ rest`
yields `e` back and consumes exactly `e.Encode.length` bytes. -/
theorem decode_encode (e : entry) (rest : Bytes) :
    decodeFrom (e.Encode ++ rest) = .ok e e.Encode.length := by
  have hshape : e.Encode ++ rest
      = e.key.length :: (e.key ++ (e.value.length :: (e.value ++ rest))) := by
    simp [entry.Encode]
  have h1 : e.key.length ≤ (e.key ++ (e.value.length :: (e.value ++ rest))).length := by
    simp
  have h2 : (e.key ++ (e.value.length :: (e.value ++ rest))).drop e.key.length
      = e.value.length :: (e.value ++ rest) := List.drop_left _ _
  have h3 : (e.key ++ (e.value.length :: (e.value ++ rest))).take e.key.length
      = e.key := List.take_left _ _
  have h4 : e.value.length ≤ (e.value ++ rest).length := by simp
  have h5 : (e.value ++ rest).take e.value.length = e.value := List.take_left _ _
  rw [hshape]
  simp only [decodeFrom, if_pos h1, h2, h3, if_pos h4, h5]
  simp [encode_length]

theorem decode_ok_pos {bs : Bytes} {e : entry} {n : Nat}
    (h : decodeFrom bs = .ok e n) : 0 < n ∧ bs ≠ [] := by
  match bs with
  | [] => simp [decodeFrom] at h
  | kl :: rest =>
    refine ⟨?_, by simp⟩
    simp only [decodeFrom] at h
    split at h
    · split at h
      · exact absurd h (by simp)
      · split at h
        · simp only [DecodeResult.ok.injEq] at h
          omega
        · exact absurd h (by simp)
    · exact absurd h (by simp)

/-- A successful decode is stable under appending bytes after the record. -/
theorem decode_append {bs : Bytes} {e : entry} {n : Nat} (ext : Bytes)
    (h : decodeFrom bs = .ok e n) : decodeFrom (bs ++ ext) = .ok e n := by
  match bs with
  | [] => simp [decodeFrom] at h
  | kl :: rest =>
    simp only [decodeFrom] at h
    by_cases hkl : kl ≤ rest.length
    · rw [if_pos hkl] at h
      cases hdk : rest.drop kl with
      | nil => rw [hdk] at h; exact absurd h (by simp)
      | cons vl rest2 =>
        rw [hdk] at h
        dsimp only at h
        by_cases hvl : vl ≤ rest2.length
        · rw [if_pos hvl] at h
          simp only [DecodeResult.ok.injEq] at h
          obtain ⟨he, hn⟩ := h
          have hlen : kl ≤ (rest ++ ext).length := by simp; omega
          have hdk' : (rest ++ ext).drop kl = vl :: (rest2 ++ ext) := by
            rw [List.drop_append_of_le_length hkl, hdk]; rfl
          have htk : (rest ++ ext).take kl = rest.take kl :=
            List.take_append_of_le_length hkl
          have hvl' : vl ≤ (rest2 ++ ext).length := by simp; omega
          have htv : (rest2 ++ ext).take vl = rest2.take vl :=
            List.take_append_of_le_length hvl
          simp only [List.cons_append, decodeFrom, if_pos hlen, hdk', if_pos hvl', htk, htv]
          rw [he, hn]
        · rw [if_neg hvl] at h; exact absurd h (by simp)
    · rw [if_neg hkl] at h; exact absurd h (by simp)

/-- A record successfully decoded at offset `off` of `c` begins strictly
before the end of `c`. -/
theorem decode_drop_lt {c : Bytes} {off : Nat} {e : entry} {n : Nat}
    (h : decodeFrom (c.drop off) = .ok e n) : off < c.length := by
  rcases decode_ok_pos h with ⟨-, hne⟩
  by_contra hlt
  exact hne (List.drop_eq_nil_of_le (by omega))

/-! ### Decimal rendering of segment ordinals

`createSegment` names files with `fmt.Sprintf("%s-%d", outFileName, len(db.segments))`;
we model `%d` by a standard decimal rendering and prove it injective. -/

def digitChar (d : Nat) : Char := Char.ofNat (48 + d)

/-- Decimal digits of `n`, most significant first; structural recursion on a
fuel argument (always called with fuel `> n`, which is sufficient since the
argument strictly decreases). -/
def decCharsCore : Nat → Nat → List Char
  | 0, _ => []
  | fuel + 1, n =>
    if n < 10 then [digitChar n]
    else decCharsCore fuel (n / 10) ++ [digitChar (n % 10)]

def decChars (n : Nat) : List Char := decCharsCore (n + 1) n

theorem digitChar_inj : ∀ d₁ < 10, ∀ d₂ < 10, digitChar d₁ = digitChar d₂ → d₁ = d₂ := by
  decide

theorem decCharsCore_ne_nil {fuel n : Nat} (h : n < fuel) : decCharsCore fuel n ≠ [] := by
  match fuel with
  | f + 1 =>
    rw [decCharsCore]
    split
    · simp
    · simp

theorem decCharsCore_inj :
    ∀ f₁ n₁ f₂ n₂, n₁ < f₁ → n₂ < f₂ →
      decCharsCore f₁ n₁ = decCharsCore f₂ n₂ → n₁ = n₂ := by
  intro f₁
  induction f₁ with
  | zero => intro n₁ f₂ n₂ h₁; omega
  | succ g ih =>
    intro n₁ f₂ n₂ h₁ h₂ h
    match f₂ with
    | g₂ + 1 =>
      rw [decCharsCore, decCharsCore] at h
      by_cases hm : n₁ < 10
      · rw [if_pos hm] at h
        by_cases hn : n₂ < 10
        · rw [if_pos hn] at h
          simp only [List.cons.injEq, and_true] at h
          exact digitChar_inj n₁ hm n₂ hn h
        · rw [if_neg hn] at h
          have hlen := congrArg List.length h
          have hne := decCharsCore_ne_nil
            (show n₂ / 10 < g₂ by
              have := Nat.div_lt_self (show 0 < n₂ by omega) (show (1:Nat) < 10 by omega); omega)
          simp only [List.length_cons, List.length_nil, List.length_append] at hlen
          have h2 : (decCharsCore g₂ (n₂ / 10)).length = 0 := by omega
          exact absurd (List.eq_nil_of_length_eq_zero h2) hne
      · rw [if_neg hm] at h
        by_cases hn : n₂ < 10
        · rw [if_pos hn] at h
          have hlen := congrArg List.length h
          have hne := decCharsCore_ne_nil
            (show n₁ / 10 < g by
              have := Nat.div_lt_self (show 0 < n₁ by omega) (show (1:Nat) < 10 by omega); omega)
          simp only [List.length_cons, List.length_nil, List.length_append] at hlen
          have h2 : (decCharsCore g (n₁ / 10)).length = 0 := by omega
          exact absurd (List.eq_nil_of_length_eq_zero h2) hne
        · rw [if_neg hn] at h
          obtain ⟨h1, h2⟩ := List.append_inj' h (by simp)
          have hdiv : n₁ / 10 = n₂ / 10 := by
            refine ih (n₁ / 10) g₂ (n₂ / 10) ?_ ?_ h1
            · have := Nat.div_lt_self (show 0 < n₁ by omega) (show (1:Nat) < 10 by omega); omega
            · have := Nat.div_lt_self (show 0 < n₂ by omega) (show (1:Nat) < 10 by omega); omega
          have hmod : n₁ % 10 = n₂ % 10 := by
            simp only [List.cons.injEq, and_true] at h2
            exact digitChar_inj _ (Nat.mod_lt _ (by omega)) _ (Nat.mod_lt _ (by omega)) h2
          omega

theorem decChars_inj (m n : Nat) (h : decChars m = decChars n) : m = n :=
  decCharsCore_inj (m + 1) m (n + 1) n (by omega) (by omega) h

def decStr (n : Nat) : String := ⟨decChars n⟩

/-- The file name `fmt.Sprintf("%s-%d", outFileName, k)` of a segment with
ordinal `k` (`outFileName = "segment"`). -/
def segName (k : Nat) : String := "segment-" ++ decStr k

theorem segName_inj {i j : Nat} (h : segName i = segName j) : i = j := by
  have hdata : "segment-".data ++ decChars i = "segment-".data ++ decChars j := by
    have h1 : (segName i).data = "segment-".data ++ decChars i := rfl
    have h2 : (segName j).data = "segment-".data ++ decChars j := rfl
    rw [← h1, ← h2, h]
  exact decChars_inj i j (List.append_cancel_left hdata)

/-! ### The file system of the store directory -/

abbrev FS := List (String × Bytes)

/-- Content of the file currently at path `p`. -/
def fsRead : FS → String → Option Bytes
  | [], _ => none
  | (nm, c) :: rest, p => if nm = p then some c else fsRead rest p

/-- A write through an `O_APPEND` handle whose path is `p`: appends to the
file at `p`; if the file was unlinked the bytes are invisible. -/
def fsAppend : FS → String → Bytes → FS
  | [], _, _ => []
  | (nm, c) :: rest, p, bs =>
    if nm = p then (nm, c ++ bs) :: rest else (nm, c) :: fsAppend rest p bs

/-- `os.OpenFile(p, O_APPEND|O_CREATE|O_RDWR, …)`: creates the file empty
when absent, keeps the existing content otherwise. -/
def fsCreate (fs : FS) (p : String) : FS :=
  if (fsRead fs p).isSome then fs else fs ++ [(p, [])]

/-- `os.Remove`. -/
def fsRemove (fs : FS) (p : String) : FS := fs.filter (fun f => !(f.1 == p))

theorem fsRead_append_eq {fs : FS} {p : String} {c : Bytes} (bs : Bytes)
    (h : fsRead fs p = some c) : fsRead (fsAppend fs p bs) p = some (c ++ bs) := by
  induction fs with
  | nil => simp [fsRead] at h
  | cons f rest ih =>
    obtain ⟨nm, cc⟩ := f
    by_cases hnm : nm = p
    · subst hnm
      have h' : cc = c := by simpa [fsRead] using h
      subst h'
      simp [fsAppend, fsRead]
    · simp only [fsRead, if_neg hnm] at h
      simp [fsAppend, fsRead, if_neg hnm, ih h]

theorem fsRead_append_ne {q p : String} (fs : FS) (bs : Bytes) (h : q ≠ p) :
    fsRead (fsAppend fs p bs) q = fsRead fs q := by
  induction fs with
  | nil => simp [fsAppend]
  | cons f rest ih =>
    obtain ⟨nm, cc⟩ := f
    by_cases hnm : nm = p
    · subst hnm
      simp [fsAppend, fsRead, if_neg (Ne.symm h)]
    · by_cases hq : nm = q
      · subst hq
        simp [fsAppend, fsRead, if_neg hnm]
      · simp [fsAppend, fsRead, if_neg hnm, if_neg hq, ih]

theorem fsRead_concat_absent {fs : FS} {p : String} (c : Bytes)
    (h : fsRead fs p = none) : fsRead (fs ++ [(p, c)]) p = some c := by
  induction fs with
  | nil => simp [fsRead]
  | cons f rest ih =>
    obtain ⟨nm, cc⟩ := f
    by_cases hnm : nm = p
    · simp [fsRead, if_pos hnm] at h
    · simp only [fsRead, if_neg hnm] at h
      simp [fsRead, if_neg hnm, ih h]

theorem fsRead_concat_ne {q p : String} (fs : FS) (c : Bytes) (h : q ≠ p) :
    fsRead (fs ++ [(p, c)]) q = fsRead fs q := by
  induction fs with
  | nil => simp [fsRead, if_neg (Ne.symm h)]
  | cons f rest ih =>
    obtain ⟨nm, cc⟩ := f
    by_cases hq : nm = q
    · simp [fsRead, if_pos hq]
    · simp [fsRead, if_neg hq, ih]

theorem fsRead_create_absent {fs : FS} {p : String} (h : fsRead fs p = none) :
    fsRead (fsCreate fs p) p = some [] := by
  rw [fsCreate, if_neg (by simp [h])]
  exact fsRead_concat_absent [] h

theorem fsRead_create_ne {q p : String} (fs : FS) (h : q ≠ p) :
    fsRead (fsCreate fs p) q = fsRead fs q := by
  rw [fsCreate]
  split
  · rfl
  · exact fsRead_concat_ne fs [] h

theorem fsRead_isSome_of_mem {fs : FS} {p : String} (h : p ∈ fs.map (·.1)) :
    ∃ c, fsRead fs p = some c := by
  induction fs with
  | nil => simp at h
  | cons f rest ih =>
    obtain ⟨nm, cc⟩ := f
    by_cases hnm : nm = p
    · exact ⟨cc, by simp [fsRead, if_pos hnm]⟩
    · simp only [List.map_cons, List.mem_cons] at h
      rcases h with h | h
      · exact absurd h.symm hnm
      · obtain ⟨c, hc⟩ := ih h
        exact ⟨c, by simp [fsRead, if_neg hnm, hc]⟩

/-! ### In-memory hash index (`hashIndex`, a Go `map[string]int64`) -/

abbrev Index := List (Bytes × Nat)

def lookupIdx : Index → Bytes → Option Nat
  | [], _ => none
  | (k, v) :: rest, key => if k = key then some v else lookupIdx rest key

def setIdx : Index → Bytes → Nat → Index
  | [], key, off => [(key, off)]
  | (k, v) :: rest, key, off =>
    if k = key then (key, off) :: rest else (k, v) :: setIdx rest key off

theorem lookup_set_self (idx : Index) (key : Bytes) (off : Nat) :
    lookupIdx (setIdx idx key off) key = some off := by
  induction idx with
  | nil => simp [setIdx, lookupIdx]
  | cons p rest ih =>
    obtain ⟨k, v⟩ := p
    by_cases hk : k = key
    · simp [setIdx, if_pos hk, lookupIdx]
    · simp [setIdx, if_neg hk, lookupIdx, if_neg hk, ih]

theorem lookup_set_ne (idx : Index) {key k' : Bytes} (off : Nat) (h : k' ≠ key) :
    lookupIdx (setIdx idx key off) k' = lookupIdx idx k' := by
  induction idx with
  | nil => simp [setIdx, lookupIdx, if_neg (Ne.symm h)]
  | cons p rest ih =>
    obtain ⟨k, v⟩ := p
    by_cases hk : k = key
    · subst hk
      simp [setIdx, lookupIdx, if_neg (Ne.symm h)]
    · simp [setIdx, if_neg hk, lookupIdx, ih]

/-! ### Directory listing order

`os.ReadDir` returns entries sorted by file name (byte-wise lexicographic);
we sort the names of the association list accordingly. -/

def charListLe : List Char → List Char → Bool
  | [], _ => true
  | _ :: _, [] => false
  | a :: as, b :: bs =>
    if a.toNat < b.toNat then true
    else if b.toNat < a.toNat then false
    else charListLe as bs

def strLe (s t : String) : Bool := charListLe s.data t.data

def insertName (s : String) : List String → List String
  | [] => [s]
  | t :: rest => if strLe s t then s :: t :: rest else t :: insertName s rest

def sortNames (l : List String) : List String := l.foldr insertName []

theorem mem_insertName {x s : String} {l : List String} :
    x ∈ insertName s l ↔ x = s ∨ x ∈ l := by
  induction l with
  | nil => simp [insertName]
  | cons t rest ih =>
    simp only [insertName]
    split
    · simp [or_comm, or_assoc, or_left_comm]
    · simp only [List.mem_cons, ih]
      tauto

theorem mem_sortNames {x : String} {l : List String} :
    x ∈ sortNames l ↔ x ∈ l := by
  induction l with
  | nil => simp [sortNames]
  | cons t rest ih =>
    simp only [sortNames, List.foldr_cons] at *
    rw [mem_insertName, ih]
    simp

/-! ### The store (`Db`, `Segment`) and its operations -/

/-- Errors surfaced by the store operations.  `corrupt p` models the
`fmt.Errorf("corrupt segment %s: %w", path, err)` of `recover`; `eofErr`
models a raw `io.EOF` escaping `DecodeFromReader`; `malformed` any other
codec error; `ioErr` an operating-system failure. -/
inductive Err where
  | notFound
  | ioErr
  | eofErr
  | malformed
  | corrupt (path : String)
deriving DecidableEq, Repr

/-- The Go `Segment` struct: open file (represented by its path, writes being
`O_APPEND`), tracked write offset, and in-memory key → offset index. -/
structure Segment where
  filePath : String
  offset : Nat
  index : Index
deriving DecidableEq, Repr

/-- The Go `Db` struct.  `activeSegment` always aliases the last element of
`segments` (established by `Open` and maintained by `Put` and
`MergeSegments`), so it is represented implicitly as `segments.getLast?`. -/
structure Db where
  segments : List Segment
  segmentSize : Nat
deriving DecidableEq, Repr

/-- `createSegment`: names the new file `segment-<len(db.segments)>` and opens
it with `O_APPEND|O_CREATE|O_RDWR` (existing content, if any, is kept and the
fresh `Segment` still starts with `offset = 0` and an empty index). -/
def createSegment (db : Db) (fs : FS) : Segment × FS :=
  let name := segName db.segments.length
  (⟨name, 0, []⟩, fsCreate fs name)

/-- The recovery replay loop of `recover`: decode records from the remaining
bytes, populating the index; `io.EOF` stops cleanly, any other decode error
aborts with `corrupt <path>`.  Structural recursion on a fuel argument;
each successful decode consumes at least one byte, so fuel `> rem.length`
is sufficient (the fuel-exhausted branch is unreachable). -/
def recoverCore (path : String) : Nat → Bytes → Nat → Index → Except Err (Index × Nat)
  | 0, _, _, _ => .error (.corrupt path)
  | fuel + 1, rem, off, idx =>
    match decodeFrom rem with
    | .eof => .ok (idx, off)
    | .malformed => .error (.corrupt path)
    | .ok rec n => recoverCore path fuel (rem.drop n) (off + n) (setIdx idx rec.key off)

/-- Whether a file is a clean concatenation of records (recovery replay
reaches end-of-file at a record boundary). -/
def validCore : Nat → Bytes → Bool
  | 0, _ => false
  | fuel + 1, bs =>
    match decodeFrom bs with
    | .eof => true
    | .malformed => false
    | .ok _ n => validCore fuel (bs.drop n)

def validFile (bs : Bytes) : Bool := validCore (bs.length + 1) bs

/-- Recovery of one segment file found on disk. -/
def recoverFile (path : String) (content : Bytes) : Except Err Segment :=
  match recoverCore path (content.length + 1) content 0 [] with
  | .error e => .error e
  | .ok (idx, off) => .ok ⟨path, off, idx⟩

/-- `filepath.HasPrefix(name, pre)`: character-wise test that `pre` is an
initial run of `name`. -/
def charsStartWith : List Char → List Char → Bool
  | _, [] => true
  | [], _ :: _ => false
  | a :: as, b :: bs => a == b && charsStartWith as bs

/-- The names `recover` iterates over: directory entries whose name starts
with `outFileName = "segment"`, in `os.ReadDir` order (sorted by name). -/
def segFileNames (fs : FS) : List String :=
  sortNames ((fs.map (·.1)).filter (fun n => charsStartWith n.data "segment".data))

def recoverFold (fs : FS) : List String → List Segment → Except Err (List Segment)
  | [], acc => .ok acc
  | nm :: rest, acc =>
    match fsRead fs nm with
    | none => .error .ioErr
    | some c =>
      match recoverFile nm c with
      | .error e => .error e
      | .ok seg => recoverFold fs rest (acc ++ [seg])

/-- `(db *Db) recover()`: scan the directory, recover each matching file in
listing order, appending the segments in that order. -/
def recoverDb (fs : FS) : Except Err (List Segment) :=
  recoverFold fs (segFileNames fs) []

/-- `Open(dir, segmentSize)`.  On an empty recovery result a fresh segment
with ordinal `0` becomes active, otherwise the last recovered segment does. -/
def Open (fs : FS) (segmentSize : Nat) : Except Err (Db × FS) :=
  match recoverDb fs with
  | .error e => .error e
  | .ok segs =>
    if segs.isEmpty then
      let db0 : Db := ⟨[], segmentSize⟩
      let (s, fs') := createSegment db0 fs
      .ok (⟨[s], segmentSize⟩, fs')
    else
      .ok (⟨segs, segmentSize⟩, fs)

/-- The body of `Get`'s per-segment hit: `os.Open` the segment's file, seek to
the indexed offset, decode one record, return its value.  Any error is
returned immediately (the scan does not continue). -/
def segGet (fs : FS) (s : Segment) (off : Nat) : Except Err Bytes :=
  match fsRead fs s.filePath with
  | none => .error .ioErr
  | some c =>
    match decodeFrom (c.drop off) with
    | .ok e _ => .ok e.value
    | .eof => .error .eofErr
    | .malformed => .error .malformed

def getLoop (fs : FS) (key : Bytes) : List Segment → Except Err Bytes
  | [] => .error .notFound
  | s :: rest =>
    match lookupIdx s.index key with
    | some off => segGet fs s off
    | none => getLoop fs key rest

/-- `Get(key)`: scan segments newest → oldest; the first segment whose index
contains the key is authoritative; a key in no index is `ErrNotFound`. -/
def Get (db : Db) (fs : FS) (key : Bytes) : Except Err Bytes :=
  getLoop fs key db.segments.reverse

/-- `Put(key, value)`.  `writeFails` models the environment making
`activeSegment.file.Write` return an error after appending `part` of the
encoded bytes; on that path Go returns before touching the index or offset.
On success the index and offset are updated, then `db.Size()` (a `Stat` of
the active file) is compared against the threshold and a rollover segment is
created when `size >= segmentSize`. -/
def Put (db : Db) (fs : FS) (key value : Bytes) (writeFails : Bool) (part : Nat) :
    Except Err Unit × Db × FS :=
  match db.segments.getLast? with
  | none => (.error .ioErr, db, fs)
  | some active =>
    let encoded := (entry.mk key value).Encode
    if writeFails then
      (.error .ioErr, db, fsAppend fs active.filePath (encoded.take part))
    else
      let fs1 := fsAppend fs active.filePath encoded
      let active' : Segment :=
        ⟨active.filePath, active.offset + encoded.length, setIdx active.index key active.offset⟩
      let db1 : Db := ⟨db.segments.dropLast ++ [active'], db.segmentSize⟩
      let size := ((fsRead fs1 active'.filePath).getD []).length
      if db.segmentSize ≤ size then
        let (nseg, fs2) := createSegment db1 fs1
        (.ok (), ⟨db1.segments ++ [nseg], db.segmentSize⟩, fs2)
      else
        (.ok (), db1, fs1)

/-- State threaded through the merge loop: the merged index, the merged
segment's write offset, and the file system. -/
structure MSt where
  mIdx : Index
  mOff : Nat
  fs : FS
deriving DecidableEq, Repr

/-- One `key, offset` pair of one source segment inside `MergeSegments`'
nested loop: keys already merged are skipped, otherwise the current record is
read from that segment's file and appended to the merged segment. -/
def mergeStep (mp : String) (seg : Segment) (kv : Bytes × Nat) (st : MSt) :
    Option Err × MSt :=
  if (lookupIdx st.mIdx kv.1).isSome then (none, st)
  else
    match fsRead st.fs seg.filePath with
    | none => (some .ioErr, st)
    | some c =>
      match decodeFrom (c.drop kv.2) with
      | .eof => (some .eofErr, st)
      | .malformed => (some .malformed, st)
      | .ok rec _ =>
        let enc := rec.Encode
        (none, ⟨setIdx st.mIdx kv.1 st.mOff, st.mOff + enc.length, fsAppend st.fs mp enc⟩)

def mergeIdxLoop (mp : String) (seg : Segment) :
    List (Bytes × Nat) → MSt → Option Err × MSt
  | [], st => (none, st)
  | kv :: rest, st =>
    match mergeStep mp seg kv st with
    | (some e, st') => (some e, st')
    | (none, st') => mergeIdxLoop mp seg rest st'

def mergeSegsLoop (mp : String) : List Segment → MSt → Option Err × MSt
  | [], st => (none, st)
  | seg :: rest, st =>
    match mergeIdxLoop mp seg seg.index st with
    | (some e, st') => (some e, st')
    | (none, st') => mergeSegsLoop mp rest st'

/-- `MergeSegments`: create the output segment (ordinal `len(db.segments)`),
fold the copy loop over all segments oldest-first, and only on full success
close and remove every old file and replace the sequence by the merged
segment.  On error the in-memory `Db` is returned untouched. -/
def MergeSegments (db : Db) (fs : FS) : Except Err Unit × Db × FS :=
  let created := createSegment db fs
  let mseg := created.1
  match mergeSegsLoop mseg.filePath db.segments ⟨[], 0, created.2⟩ with
  | (some e, st) => (.error e, db, st.fs)
  | (none, st) =>
    let fs1 := db.segments.foldl (fun acc s => fsRemove acc s.filePath) st.fs
    (.ok (), ⟨[⟨mseg.filePath, st.mOff, st.mIdx⟩], db.segmentSize⟩, fs1)

end Datastore

namespace Balancer

/-- The `ServerInfo` registry entry of the load balancer (the mutex only
guards concurrent access and carries no state). -/
structure ServerInfo where
  url : String
  alive : Bool
  traffic : Int
deriving DecidableEq, Repr

/-- The selection loop of `selectServerLeastTraffic` over the alive servers:
`selectedServer` starts `nil`, `minTraffic` starts `-1`, and a server is
taken when none is selected yet or its traffic is strictly smaller. -/
def selectLoop : List ServerInfo → Option ServerInfo → Int → Option ServerInfo
  | [], sel, _ => sel
  | s :: rest, none, _ => selectLoop rest (some s) s.traffic
  | s :: rest, some cur, minT =>
    if s.traffic < minT then selectLoop rest (some s) s.traffic
    else selectLoop rest (some cur) minT

/-- `selectServerLeastTraffic()`. -/
def selectServerLeastTraffic (servers : List ServerInfo) : Option ServerInfo :=
  let available := servers.filter (·.alive)
  if available.isEmpty then none else selectLoop available none (-1)

/-- The request handler of `main`: respond 503 when no server is selected,
otherwise forward to the selected server. -/
def balancerHandler (servers : List ServerInfo) : Except Nat ServerInfo :=
  match selectServerLeastTraffic servers with
  | none => .error 503
  | some s => .ok s

/-- Outcome of one `GET /health` probe as observed by `health`: an HTTP
response with some status, or a failed round-trip (network error or context
timeout, both surfacing as `err != nil` from `http.DefaultClient.Do`). -/
inductive ProbeOutcome where
  | response (status : Nat)
  | netError
  | timeout
deriving DecidableEq, Repr

/-- `health(server)`: `currentStatus` is true exactly when the request
succeeded with `http.StatusOK` (200); the flag is stored unconditionally and
nothing else of the entry is touched. -/
def healthUpdate (s : ServerInfo) (o : ProbeOutcome) : ServerInfo :=
  let currentStatus :=
    match o with
    | .response st => st == 200
    | .netError => false
    | .timeout => false
  ⟨s.url, currentStatus, s.traffic⟩

/-- One round of the health prober: each backend's goroutine probes its own
entry; the registry list itself is never modified. -/
def probeAll (servers : List ServerInfo) (outcome : String → ProbeOutcome) :
    List ServerInfo :=
  servers.map (fun s => healthUpdate s (outcome s.url))

end Balancer

namespace Balancer

/-! ### Characterisation of the selection loop -/

/-- Specification view of the loop: the first element of `c :: l` attaining
the minimum traffic. -/
def firstMin : ServerInfo → List ServerInfo → ServerInfo
  | c, [] => c
  | c, s :: rest => if s.traffic < c.traffic then firstMin s rest else firstMin c rest

theorem selectLoop_some (l : List ServerInfo) :
    ∀ c, selectLoop l (some c) c.traffic = some (firstMin c l) := by
  induction l with
  | nil => intro c; simp [selectLoop, firstMin]
  | cons s rest ih =>
    intro c
    by_cases h : s.traffic < c.traffic
    · simp only [selectLoop, if_pos h, firstMin, ih]
    · simp only [selectLoop, if_neg h, firstMin, ih]

theorem firstMin_mem (l : List ServerInfo) : ∀ c, firstMin c l ∈ c :: l := by
  induction l with
  | nil => intro c; simp [firstMin]
  | cons s rest ih =>
    intro c
    by_cases h : s.traffic < c.traffic
    · rw [firstMin, if_pos h]
      have := ih s
      simp only [List.mem_cons] at this ⊢
      tauto
    · rw [firstMin, if_neg h]
      have := ih c
      simp only [List.mem_cons] at this ⊢
      tauto

theorem firstMin_le (l : List ServerInfo) :
    ∀ c, ∀ t ∈ c :: l, (firstMin c l).traffic ≤ t.traffic := by
  induction l with
  | nil =>
    intro c t ht
    simp only [List.mem_cons, List.not_mem_nil, or_false] at ht
    subst ht
    simp [firstMin]
  | cons s rest ih =>
    intro c t ht
    simp only [List.mem_cons] at ht
    by_cases h : s.traffic < c.traffic
    · rw [firstMin, if_pos h]
      rcases ht with h1 | h1 | h1
      · have h2 := ih s s (by simp)
        rw [h1]
        omega
      · rw [h1]
        exact ih s s (by simp)
      · exact ih s t (by simp [h1])
    · rw [firstMin, if_neg h]
      rcases ht with h1 | h1 | h1
      · rw [h1]
        exact ih c c (by simp)
      · have h2 := ih c c (by simp)
        rw [h1]
        omega
      · exact ih c t (by simp [h1])

theorem firstMin_split (l : List ServerInfo) :
    ∀ c, ∃ l₁ l₂, c :: l = l₁ ++ (firstMin c l) :: l₂ ∧
      ∀ t ∈ l₁, (firstMin c l).traffic < t.traffic := by
  induction l with
  | nil => intro c; exact ⟨[], [], by simp [firstMin], by simp⟩
  | cons s rest ih =>
    intro c
    by_cases h : s.traffic < c.traffic
    · rw [firstMin, if_pos h]
      obtain ⟨l₁, l₂, heq, hlt⟩ := ih s
      refine ⟨c :: l₁, l₂, by simp [heq], ?_⟩
      intro t ht
      simp only [List.mem_cons] at ht
      rcases ht with rfl | ht
      · have := firstMin_le rest s s (by simp)
        omega
      · exact hlt t ht
    · rw [firstMin, if_neg h]
      obtain ⟨l₁, l₂, heq, hlt⟩ := ih c
      match l₁, heq, hlt with
      | [], heq, hlt =>
        have hc : c = firstMin c rest := by
          simpa using congrArg (fun x => x.headD c) heq
        refine ⟨[], s :: rest, ?_, by simp⟩
        rw [List.nil_append, ← hc]
      | x :: l₁', heq, hlt =>
        have hx : c = x := by
          simpa using congrArg (fun x => x.headD c) heq
        subst hx
        rw [List.cons_append] at heq
        have hrest : rest = l₁' ++ firstMin c rest :: l₂ := by
          injection heq
        have hclt : (firstMin c rest).traffic < c.traffic := hlt c (by simp)
        refine ⟨c :: s :: l₁', l₂, by rw [List.cons_append, List.cons_append, ← hrest], ?_⟩
        intro t ht
        simp only [List.mem_cons] at ht
        rcases ht with h1 | h1 | h1
        · subst h1; exact hclt
        · subst h1; omega
        · exact hlt t (by simp [h1])

/-- C5: among the alive backends the dispatcher selects the one with minimum
cumulative traffic, ties resolving to the first (lowest-index) one; with no
alive backend the selection is `none` and the handler answers 503. -/
theorem c5_select_least_traffic (servers : List ServerInfo) :
    (balancerHandler servers = .error 503 ↔ servers.filter (·.alive) = []) ∧
    (∀ s, selectServerLeastTraffic servers = some s →
      s.alive = true ∧
      (∀ t ∈ servers, t.alive = true → s.traffic ≤ t.traffic) ∧
      ∃ l₁ l₂, servers.filter (·.alive) = l₁ ++ s :: l₂ ∧
        ∀ t ∈ l₁, s.traffic < t.traffic) := by
  cases havail : servers.filter (·.alive) with
  | nil =>
    constructor
    · simp [balancerHandler, selectServerLeastTraffic, havail]
    · intro s hs
      simp [selectServerLeastTraffic, havail] at hs
  | cons hd tl =>
    have hsel : selectServerLeastTraffic servers = some (firstMin hd tl) := by
      unfold selectServerLeastTraffic
      rw [havail]
      show selectLoop (hd :: tl) none (-1) = _
      rw [selectLoop]
      exact selectLoop_some tl hd
    constructor
    · constructor
      · intro hcontra
        rw [balancerHandler, hsel] at hcontra
        exact absurd hcontra (by simp)
      · intro hcontra
        exact absurd hcontra (by simp)
    · intro s hs
      rw [hsel] at hs
      have hs' : s = firstMin hd tl := by injection hs with h; exact h.symm
      subst hs'
      have hmem : firstMin hd tl ∈ hd :: tl := firstMin_mem tl hd
      refine ⟨?_, ?_, ?_⟩
      · have hmf : firstMin hd tl ∈ servers.filter (·.alive) := by
          rw [havail]; exact hmem
        exact List.of_mem_filter hmf
      · intro t ht halive
        have htf : t ∈ hd :: tl := by
          rw [← havail]
          exact List.mem_filter.mpr ⟨ht, by simp [halive]⟩
        exact firstMin_le tl hd t htf
      · obtain ⟨l₁, l₂, heq, hlt⟩ := firstMin_split tl hd
        exact ⟨l₁, l₂, heq, hlt⟩

/-- A concrete registry: a dead cheapest server and a traffic tie among the
alive ones (mirrors the table-driven cases of `TestSelectServerLeastTraffic`). -/
def regW : List ServerInfo :=
  [⟨"s1", true, 100⟩, ⟨"s2", true, 50⟩, ⟨"s3", true, 50⟩, ⟨"s4", false, 10⟩]

/-- The server the dispatcher should pick from `regW`. -/
def srvW : ServerInfo := ⟨"s2", true, 50⟩

/-- C5 witness: on `regW` the selected server is the first alive minimum. -/
theorem c5_select_least_traffic_witness :
    srvW.alive = true ∧
    (∀ t ∈ regW, t.alive = true → srvW.traffic ≤ t.traffic) ∧
    ∃ l₁ l₂, regW.filter (·.alive) = l₁ ++ srvW :: l₂ ∧
      ∀ t ∈ l₁, srvW.traffic < t.traffic :=
  (c5_select_least_traffic regW).2 srvW (by decide)

/-- C6 counterexample: a `204 No Content` response — a 2xx status — to the
health probe leaves the backend marked not-alive, because `health` compares
the status with `http.StatusOK` (200) only.  The claim that any 2xx response
marks the backend alive is therefore false on the code. -/
theorem c6_2xx_marked_dead_counterexample :
    (200 ≤ 204 ∧ 204 < 300) ∧
    (healthUpdate ⟨"server1:8080", false, 0⟩ (.response 204)).alive = false := by
  decide

/-- C6 (amended): a probe marks the backend alive exactly when the round-trip
succeeds with status exactly 200; every other outcome (non-200 status,
network error, timeout) marks it not-alive.  The probe only writes the alive
flag of its own entry, and a prober round never adds or removes registry
entries. -/
theorem c6_health_probe (s : ServerInfo) (o : ProbeOutcome)
    (servers : List ServerInfo) (outcome : String → ProbeOutcome) :
    ((healthUpdate s o).alive = true ↔ o = .response 200) ∧
    (healthUpdate s o).url = s.url ∧
    (healthUpdate s o).traffic = s.traffic ∧
    (probeAll servers outcome).map (·.url) = servers.map (·.url) := by
  refine ⟨?_, rfl, rfl, ?_⟩
  · cases o with
    | response st => simp [healthUpdate]
    | netError => simp [healthUpdate]
    | timeout => simp [healthUpdate]
  · simp [probeAll, healthUpdate]

/-- C6 witness: a 200 probe revives a dead backend, a 500 probe kills a live
one, a timeout kills a live one, and a probe round preserves the registry's
entries. -/
theorem c6_health_probe_witness :
    (healthUpdate ⟨"b", false, 7⟩ (.response 200)).alive = true ∧
    (healthUpdate ⟨"b", true, 7⟩ (.response 500)).alive ≠ true ∧
    (healthUpdate ⟨"b", true, 7⟩ .timeout).alive ≠ true ∧
    (probeAll [⟨"b", true, 7⟩] (fun _ => .timeout)).map (·.url) = ["b"] := by
  refine ⟨?_, ?_, ?_, ?_⟩
  · exact (c6_health_probe ⟨"b", false, 7⟩ (.response 200) [] (fun _ => .timeout)).1.mpr rfl
  · intro hc
    have := (c6_health_probe ⟨"b", true, 7⟩ (.response 500) [] (fun _ => .timeout)).1.mp hc
    exact absurd this (by decide)
  · intro hc
    have := (c6_health_probe ⟨"b", true, 7⟩ .timeout [] (fun _ => .timeout)).1.mp hc
    exact absurd this (by decide)
  · exact (c6_health_probe ⟨"b", true, 7⟩ .timeout [⟨"b", true, 7⟩] (fun _ => .timeout)).2.2.2

end Balancer

namespace Datastore

/-! ### A concrete execution exercising merge, rollover and restart

Store opened on an empty directory with `segmentSize = 1` (every put exceeds
the threshold and rolls over).  Keys/values are single bytes:
`a = [97]`, `b = [98]`, `"1" = [49]`, `"2" = [50]`, `"3" = [51]`. -/

/-- The state `Open` produces on an empty directory. -/
def scen0 : Db × FS := (⟨[⟨segName 0, 0, []⟩], 1⟩, [(segName 0, [])])

/-- After `Put("a", "1")` (rolls over to `segment-1`). -/
def scenA : Db × FS := (Put scen0.1 scen0.2 [97] [49] false 0).2

/-- After `Put("a", "2")` (rolls over to `segment-2`). -/
def scenB : Db × FS := (Put scenA.1 scenA.2 [97] [50] false 0).2

/-- Result of `MergeSegments` on the three-segment store. -/
def scenMerge : Except Err Unit × Db × FS := MergeSegments scenB.1 scenB.2

/-- After the merge, `Put("b", "2")` (rolls over, creating `segment-1`). -/
def scenC : Db × FS := (Put scenMerge.2.1 scenMerge.2.2 [98] [50] false 0).2

/-- Then `Put("a", "3")`. -/
def scenD : Db × FS := (Put scenC.1 scenC.2 [97] [51] false 0).2

/-- `Close()` (which only closes file handles) followed by `Open` on the same
directory. -/
def scenReopen : Except Err (Db × FS) := Open scenD.2 1

/-- The store/file-system state after the reopen. -/
def scenReSt : Db × FS := (Open scenD.2 1).toOption.getD (⟨[], 0⟩, [])

/-- C1: refuted on the code.  Starting from `Open` on an empty directory,
after `Put("a","1")` and `Put("a","2")` (in different segments), `Get("a")`
returns `"2"`; `MergeSegments` completes successfully, after which `Get("a")`
returns `"1"`: the merge loop iterates segments oldest-first and keeps the
oldest record of each key, so the most recent value is lost. -/
theorem c1_merge_drops_newest_value :
    Open [] 1 = .ok scen0 ∧
    Get scenB.1 scenB.2 [97] = .ok [50] ∧
    scenMerge.1 = .ok () ∧
    Get scenMerge.2.1 scenMerge.2.2 [97] = .ok [49] ∧
    (Except.ok [49] : Except Err Bytes) ≠ .ok [50] := by
  decide

/-- C2: refuted on the code.  In the same execution, continuing after the
merge with `Put("b","2")` (whose rollover reuses ordinal 1, smaller than the
merged segment's ordinal 3) and `Put("a","3")`, the pre-close `Get("a")` is
`"3"`; after `Close` and `Open` on the same directory with the same threshold,
`Get("a")` is `"1"`: recovery orders files by name, so the merged
`segment-3` (older data) shadows `segment-1` (newer data). -/
theorem c2_restart_changes_get :
    Open [] 1 = .ok scen0 ∧
    Get scenD.1 scenD.2 [97] = .ok [51] ∧
    scenReopen = .ok scenReSt ∧
    Get scenReSt.1 scenReSt.2 [97] = .ok [49] ∧
    (Except.ok [49] : Except Err Bytes) ≠ .ok [51] := by
  decide

/-- C3: refuted on the code.  `MergeSegments` on the three-segment store
creates the output segment with ordinal 3 (`len(db.segments)`), after which
the segment sequence is `[segment-3]`; the very next rollover names its new
segment `segment-1` — a segment created later in the same store lifetime with
a strictly smaller ordinal. -/
theorem c3_ordinal_reuse_after_merge :
    scenMerge.2.1.segments.map (·.filePath) = [segName 3] ∧
    scenC.1.segments.map (·.filePath) = [segName 3, segName 1] ∧
    (1 : Nat) < 3 := by
  decide

/-! ### Error atomicity of `Put` and `MergeSegments` -/

/-- C7: when the append of the encoded record to the active segment's file
fails, `Put` returns the error and the in-memory store is exactly unchanged
(in particular the active segment's index and write offset), for every store
state, file system, key, value and partial write length. -/
theorem c7_put_write_failure_atomic (db : Db) (fs : FS) (key value : Bytes) (part : Nat) :
    (Put db fs key value true part).1 = .error .ioErr ∧
    (Put db fs key value true part).2.1 = db := by
  cases h : db.segments.getLast? with
  | none => simp [Put, h]
  | some active => simp [Put, h]

theorem segGet_congr {fs₁ fs₂ : FS} {s : Segment} (off : Nat)
    (h : fsRead fs₁ s.filePath = fsRead fs₂ s.filePath) :
    segGet fs₁ s off = segGet fs₂ s off := by
  unfold segGet
  rw [h]

theorem getLoop_congr {fs₁ fs₂ : FS} (key : Bytes) (L : List Segment)
    (h : ∀ s ∈ L, fsRead fs₁ s.filePath = fsRead fs₂ s.filePath) :
    getLoop fs₁ key L = getLoop fs₂ key L := by
  induction L with
  | nil => rfl
  | cons s rest ih =>
    cases hlook : lookupIdx s.index key with
    | some off =>
      simp only [getLoop, hlook]
      exact segGet_congr off (h s (by simp))
    | none =>
      simp only [getLoop, hlook]
      exact ih (fun t ht => h t (by simp [ht]))

/-- The merge copy loop touches the file system only at the merged output
path. -/
theorem mergeStep_read_ne (mp : String) (seg : Segment) (kv : Bytes × Nat) (st : MSt)
    {q : String} (hq : q ≠ mp) :
    fsRead (mergeStep mp seg kv st).2.fs q = fsRead st.fs q := by
  cases hsk : (lookupIdx st.mIdx kv.1).isSome with
  | true => simp only [mergeStep, hsk, if_true]
  | false =>
    simp only [mergeStep, hsk, Bool.false_eq_true, if_false]
    cases h1 : fsRead st.fs seg.filePath with
    | none => rfl
    | some c =>
      dsimp only
      cases h2 : decodeFrom (List.drop kv.2 c) with
      | eof => rfl
      | malformed => rfl
      | ok rec n => exact fsRead_append_ne st.fs _ hq

theorem mergeIdxLoop_read_ne (mp : String) (seg : Segment) :
    ∀ (kvs : List (Bytes × Nat)) (st : MSt) {q : String}, q ≠ mp →
      fsRead (mergeIdxLoop mp seg kvs st).2.fs q = fsRead st.fs q := by
  intro kvs
  induction kvs with
  | nil => intro st q hq; rfl
  | cons kv rest ih =>
    intro st q hq
    have hstepfs := mergeStep_read_ne mp seg kv st hq
    cases hstep : mergeStep mp seg kv st with
    | mk oerr st' =>
      rw [hstep] at hstepfs
      cases oerr with
      | some e => simp only [mergeIdxLoop, hstep]; exact hstepfs
      | none =>
        simp only [mergeIdxLoop, hstep]
        rw [ih st' hq]
        exact hstepfs

theorem mergeSegsLoop_read_ne (mp : String) :
    ∀ (segs : List Segment) (st : MSt) {q : String}, q ≠ mp →
      fsRead (mergeSegsLoop mp segs st).2.fs q = fsRead st.fs q := by
  intro segs
  induction segs with
  | nil => intro st q hq; rfl
  | cons seg rest ih =>
    intro st q hq
    have hidx := mergeIdxLoop_read_ne mp seg seg.index st hq
    cases hloop : mergeIdxLoop mp seg seg.index st with
    | mk oerr st' =>
      rw [hloop] at hidx
      cases oerr with
      | some e => simp only [mergeSegsLoop, hloop]; exact hidx
      | none =>
        simp only [mergeSegsLoop, hloop]
        rw [ih st' hq]
        exact hidx

/-- C10: when `MergeSegments` fails, the in-memory store (segment sequence,
active segment, every index) is exactly the one from before the merge, and —
provided the merge output's name does not collide with an existing segment's
file — every subsequent `Get` returns exactly what it returned before the
attempt (the merge only created/extended the output file, which no index
references). -/
theorem c10_merge_error_atomic (db : Db) (fs : FS) (e : Err) (db' : Db) (fs' : FS)
    (hmerge : MergeSegments db fs = (.error e, db', fs'))
    (hfresh : ∀ s ∈ db.segments, s.filePath ≠ segName db.segments.length) :
    db' = db ∧ ∀ k, Get db' fs' k = Get db fs k := by
  simp only [MergeSegments, createSegment] at hmerge
  cases hloop : mergeSegsLoop (segName db.segments.length) db.segments
      ⟨[], 0, fsCreate fs (segName db.segments.length)⟩ with
  | mk oerr st =>
    rw [hloop] at hmerge
    cases oerr with
    | none =>
      dsimp only at hmerge
      exact absurd (congrArg Prod.fst hmerge) (by simp)
    | some e₂ =>
      dsimp only at hmerge
      injection hmerge with h1 h23
      injection h23 with h2 h3
      subst h2
      subst h3
      refine ⟨rfl, ?_⟩
      intro k
      unfold Get
      apply getLoop_congr
      intro s hsmem
      have hs : s ∈ db.segments := List.mem_reverse.mp hsmem
      have hne : s.filePath ≠ segName db.segments.length := hfresh s hs
      have hstep := mergeSegsLoop_read_ne (segName db.segments.length) db.segments
        ⟨[], 0, fsCreate fs (segName db.segments.length)⟩ hne
      rw [hloop] at hstep
      dsimp only at hstep
      rw [hstep]
      exact fsRead_create_ne fs hne

/-! ### Recovery: corruption is fatal and names the file -/

/-- Every error `recoverCore` can produce is `corrupt path`. -/
theorem recoverCore_err (path : String) :
    ∀ (fuel : Nat) (bs : Bytes) (off : Nat) (idx : Index) (e : Err),
      recoverCore path fuel bs off idx = .error e → e = .corrupt path := by
  intro fuel
  induction fuel with
  | zero =>
    intro bs off idx e h
    simp only [recoverCore] at h
    injection h with h1
    exact h1.symm
  | succ g ih =>
    intro bs off idx e h
    rw [recoverCore] at h
    cases hdec : decodeFrom bs with
    | eof => rw [hdec] at h; exact absurd h (by simp)
    | malformed =>
      rw [hdec] at h
      injection h with h1
      exact h1.symm
    | ok rec n =>
      rw [hdec] at h
      exact ih _ _ _ _ h

/-- `validCore` does not depend on the fuel as long as it exceeds the length
of the remaining bytes. -/
theorem validCore_fuel :
    ∀ (f₁ f₂ : Nat) (bs : Bytes), bs.length < f₁ → bs.length < f₂ →
      validCore f₁ bs = validCore f₂ bs := by
  intro f₁
  induction f₁ with
  | zero => intro f₂ bs h₁; omega
  | succ g ih =>
    intro f₂ bs h₁ h₂
    match f₂ with
    | g₂ + 1 =>
      rw [validCore, validCore]
      cases hdec : decodeFrom bs with
      | eof => rfl
      | malformed => rfl
      | ok rec n =>
        rcases decode_ok_pos hdec with ⟨hn, hne⟩
        have hlen : 0 < bs.length := List.length_pos.mpr hne
        apply ih
        · simp only [List.length_drop]; omega
        · simp only [List.length_drop]; omega

/-- With sufficient fuel, recovery of a byte stream succeeds exactly when the
stream is a clean concatenation of records, and otherwise fails with
`corrupt path`. -/
theorem recoverCore_valid (path : String) :
    ∀ (fuel : Nat) (bs : Bytes) (off : Nat) (idx : Index), bs.length < fuel →
      (validCore fuel bs = true →
        ∃ i o, recoverCore path fuel bs off idx = .ok (i, o)) ∧
      (validCore fuel bs = false →
        recoverCore path fuel bs off idx = .error (.corrupt path)) := by
  intro fuel
  induction fuel with
  | zero => intro bs off idx h; omega
  | succ g ih =>
    intro bs off idx h
    rw [validCore, recoverCore]
    cases hdec : decodeFrom bs with
    | eof => exact ⟨fun _ => ⟨idx, off, rfl⟩, fun hc => by simp at hc⟩
    | malformed => exact ⟨fun hc => by simp at hc, fun _ => rfl⟩
    | ok rec n =>
      rcases decode_ok_pos hdec with ⟨hn, hne⟩
      have hlen : 0 < bs.length := List.length_pos.mpr hne
      apply ih
      simp only [List.length_drop]
      omega

theorem recoverFile_err {path : String} {content : Bytes} {e : Err}
    (h : recoverFile path content = .error e) : e = .corrupt path := by
  rw [recoverFile] at h
  cases hrec : recoverCore path (content.length + 1) content 0 [] with
  | error e' =>
    rw [hrec] at h
    injection h with h1
    subst h1
    exact recoverCore_err path _ _ _ _ _ hrec
  | ok p => rw [hrec] at h; exact absurd h (by simp)

theorem recoverFile_ok_path {path : String} {content : Bytes} {s : Segment}
    (h : recoverFile path content = .ok s) : s.filePath = path := by
  rw [recoverFile] at h
  cases hrec : recoverCore path (content.length + 1) content 0 [] with
  | error e' => rw [hrec] at h; exact absurd h (by simp)
  | ok p =>
    rw [hrec] at h
    obtain ⟨i, o⟩ := p
    injection h with h1
    rw [← h1]

theorem recoverFile_valid (path : String) {content : Bytes}
    (h : validFile content = true) : ∃ s, recoverFile path content = .ok s := by
  obtain ⟨i, o, hio⟩ :=
    ((recoverCore_valid path (content.length + 1) content 0 [] (by omega)).1 h)
  exact ⟨⟨path, o, i⟩, by rw [recoverFile, hio]⟩

theorem recoverFile_invalid {path : String} {content : Bytes}
    (h : validFile content = false) :
    recoverFile path content = .error (.corrupt path) := by
  have hrec :=
    (recoverCore_valid path (content.length + 1) content 0 [] (by omega)).2 h
  rw [recoverFile, hrec]

theorem recoverFold_err (fs : FS) :
    ∀ (names : List String) (acc : List Segment) (e : Err),
      (∀ nm ∈ names, ∃ c, fsRead fs nm = some c) →
      recoverFold fs names acc = .error e → ∃ p ∈ names, e = .corrupt p := by
  intro names
  induction names with
  | nil => intro acc e _ h; simp [recoverFold] at h
  | cons nm rest ih =>
    intro acc e hread h
    obtain ⟨c, hc⟩ := hread nm (by simp)
    rw [recoverFold, hc] at h
    dsimp only at h
    cases hrec : recoverFile nm c with
    | error e' =>
      rw [hrec] at h
      injection h with h1
      subst h1
      exact ⟨nm, by simp, recoverFile_err hrec⟩
    | ok seg =>
      rw [hrec] at h
      obtain ⟨p, hp, he⟩ := ih (acc ++ [seg]) e (fun x hx => hread x (by simp [hx])) h
      exact ⟨p, by simp [hp], he⟩

theorem recoverFold_ok_map (fs : FS) :
    ∀ (names : List String) (acc : List Segment) (segs : List Segment),
      recoverFold fs names acc = .ok segs →
      segs.map (·.filePath) = acc.map (·.filePath) ++ names := by
  intro names
  induction names with
  | nil =>
    intro acc segs h
    simp only [recoverFold] at h
    injection h with h1
    simp [← h1]
  | cons nm rest ih =>
    intro acc segs h
    rw [recoverFold] at h
    cases hc : fsRead fs nm with
    | none => rw [hc] at h; exact absurd h (by simp)
    | some c =>
      rw [hc] at h
      dsimp only at h
      cases hrec : recoverFile nm c with
      | error e' => rw [hrec] at h; exact absurd h (by simp)
      | ok seg =>
        rw [hrec] at h
        have := ih (acc ++ [seg]) segs h
        rw [this, List.map_append]
        simp [recoverFile_ok_path hrec]

theorem segFileNames_readable (fs : FS) :
    ∀ nm ∈ segFileNames fs, ∃ c, fsRead fs nm = some c := by
  intro nm hnm
  apply fsRead_isSome_of_mem
  rw [segFileNames, mem_sortNames] at hnm
  exact List.mem_of_mem_filter hnm

/-- C8: during `Open`'s recovery of a segment file, end-of-file at a record
boundary stops the replay cleanly and the segment is recovered; any decode
failure before end-of-file makes recovery — and hence `Open` — fail with a
`corrupt` error naming the offending file's path; and on success no segment
file is skipped: the recovered sequence lists exactly the matching directory
entries, in order. -/
theorem c8_recovery_corruption (path : String) (content : Bytes) (fs : FS) (S : Nat) :
    (validFile content = true →
      ∃ s, recoverFile path content = .ok s ∧ s.filePath = path) ∧
    (validFile content = false →
      recoverFile path content = .error (.corrupt path)) ∧
    (∀ e, recoverDb fs = .error e →
      (∃ p ∈ segFileNames fs, e = .corrupt p) ∧ Open fs S = .error e) ∧
    (∀ segs, recoverDb fs = .ok segs →
      segs.map (·.filePath) = segFileNames fs) := by
  refine ⟨?_, recoverFile_invalid, ?_, ?_⟩
  · intro hv
    obtain ⟨s, hs⟩ := recoverFile_valid path hv
    exact ⟨s, hs, recoverFile_ok_path hs⟩
  · intro e he
    refine ⟨recoverFold_err fs (segFileNames fs) [] e (segFileNames_readable fs) he, ?_⟩
    rw [Open, he]
  · intro segs hsegs
    have := recoverFold_ok_map fs (segFileNames fs) [] segs hsegs
    simpa using this

/-- C8 witness: the empty file recovers cleanly; a one-byte file is malformed
and recovery fails naming the file; `Open` on a directory holding such a
segment file fails with `corrupt` naming it. -/
theorem c8_recovery_corruption_witness :
    (∃ s, recoverFile "segment-0" [] = .ok s ∧ s.filePath = "segment-0") ∧
    recoverFile "segment-9" [0] = .error (.corrupt "segment-9") ∧
    Open [("segment-0", [0])] 5 = .error (.corrupt "segment-0") :=
  ⟨(c8_recovery_corruption "segment-0" [] [] 5).1 (by decide),
   (c8_recovery_corruption "segment-9" [0] [] 5).2.1 (by decide),
   ((c8_recovery_corruption "segment-9" [0] [("segment-0", [0])] 5).2.2.1
      (.corrupt "segment-0") (by decide)).2⟩

/-- A store state whose single segment's index points past the end of its
file: the merge's record copy hits a decode failure and aborts. -/
def mergeFailDb : Db := ⟨[⟨segName 0, 0, [([97], 5)]⟩], 10⟩

/-- The file system for `mergeFailDb`: the segment file is empty. -/
def mergeFailFs : FS := [(segName 0, [])]

/-- C10 witness: the concrete failing merge leaves the store unchanged and
all reads identical. -/
theorem c10_merge_error_atomic_witness :
    (MergeSegments mergeFailDb mergeFailFs).2.1 = mergeFailDb ∧
    ∀ k, Get (MergeSegments mergeFailDb mergeFailFs).2.1
        (MergeSegments mergeFailDb mergeFailFs).2.2 k = Get mergeFailDb mergeFailFs k := by
  have h := c10_merge_error_atomic mergeFailDb mergeFailFs Err.eofErr
    (MergeSegments mergeFailDb mergeFailFs).2.1 (MergeSegments mergeFailDb mergeFailFs).2.2
    (by decide) (by decide)
  exact ⟨h.1, fun k => by rw [h.1]; exact (h.1 ▸ h.2) k⟩

/-! ### Last-write-wins within one session -/

/-- One successful `Put` (no injected I/O failure), as a state transformer. -/
def put1 (st : Db × FS) (kv : Bytes × Bytes) : Db × FS :=
  (Put st.1 st.2 kv.1 kv.2 false 0).2

/-- A whole session of puts, first element performed first. -/
def runPuts (st : Db × FS) (ps : List (Bytes × Bytes)) : Db × FS :=
  ps.foldl put1 st

/-- The value of the most recent put of `k` in `ps` (later entries of `ps`
are the more recent operations). -/
def lastPut : List (Bytes × Bytes) → Bytes → Option Bytes
  | [], _ => none
  | kv :: rest, k =>
    match lastPut rest k with
    | some v => some v
    | none => if kv.1 = k then some kv.2 else none

def updMap (M : Bytes → Option Bytes) (key : Bytes) (v : Bytes) :
    Bytes → Option Bytes :=
  fun k => if k = key then some v else M k

/-- The `Get` outcome an abstract key→value map prescribes. -/
def toRes : Option Bytes → Except Err Bytes
  | some v => .ok v
  | none => .error .notFound

/-- `Get` agrees pointwise with the abstract map `M`. -/
def GetsAre (db : Db) (fs : FS) (M : Bytes → Option Bytes) : Prop :=
  ∀ k, Get db fs k = toRes (M k)

/-- The inductive invariant of a store produced by `Open` on an empty
directory followed by successful puts: the segment sequence is nonempty with
paths `segment-0 … segment-(n-1)`, every path `segment-j` with `j ≥ n` is
absent from the directory, and the active (last) segment's file length equals
its tracked offset with every indexed offset decodable. -/
def StoreInv (db : Db) (fs : FS) : Prop :=
  ∃ pre a, db.segments = pre ++ [a] ∧
    db.segments.map (·.filePath) =
      (List.range db.segments.length).map segName ∧
    (∀ j, db.segments.length ≤ j → fsRead fs (segName j) = none) ∧
    ∃ c, fsRead fs a.filePath = some c ∧ c.length = a.offset ∧
      ∀ k off, lookupIdx a.index k = some off →
        ∃ e m, decodeFrom (c.drop off) = .ok e m ∧ e.key = k

theorem decode_encode_nil (e : entry) :
    decodeFrom e.Encode = .ok e e.Encode.length := by
  have h := decode_encode e []
  simpa using h

theorem getLoop_cons_some {fs : FS} {key : Bytes} {s : Segment} {rest : List Segment}
    {off : Nat} (h : lookupIdx s.index key = some off) :
    getLoop fs key (s :: rest) = segGet fs s off := by
  simp only [getLoop, h]

theorem getLoop_cons_none {fs : FS} {key : Bytes} {s : Segment} {rest : List Segment}
    (h : lookupIdx s.index key = none) :
    getLoop fs key (s :: rest) = getLoop fs key rest := by
  simp only [getLoop, h]

theorem segGet_eval (s : Segment) {fs : FS} {off : Nat} {c : Bytes} {e : entry} {m : Nat}
    (hc : fsRead fs s.filePath = some c) (hd : decodeFrom (c.drop off) = .ok e m) :
    segGet fs s off = .ok e.value := by
  simp only [segGet, hc, hd]

theorem paths_split {pre : List Segment} {a : Segment}
    (hpaths : (pre ++ [a]).map (·.filePath) =
      (List.range (pre.length + 1)).map segName) :
    a.filePath = segName pre.length ∧
      pre.map (·.filePath) = (List.range pre.length).map segName := by
  rw [List.range_succ, List.map_append, List.map_append] at hpaths
  obtain ⟨h1, h2⟩ := List.append_inj' hpaths (by simp)
  refine ⟨?_, h1⟩
  simpa using h2

theorem pre_path_ne {pre : List Segment} {a : Segment}
    (hpre : pre.map (·.filePath) = (List.range pre.length).map segName)
    (hapath : a.filePath = segName pre.length) :
    ∀ s ∈ pre, s.filePath ≠ a.filePath := by
  intro s hs hcontra
  have hmem : s.filePath ∈ (List.range pre.length).map segName := by
    rw [← hpre]
    exact List.mem_map_of_mem _ hs
  obtain ⟨i, hi, hsi⟩ := List.mem_map.mp hmem
  rw [List.mem_range] at hi
  rw [← hsi, hapath] at hcontra
  have := segName_inj hcontra
  omega

/-- Core of the `Put` preservation argument: appending one record to the
active segment's file, and updating the active index accordingly, moves all
reads from `M` to `M[key ↦ v]`. -/
theorem getLoop_put_core (fs : FS) (pre : List Segment) (a : Segment) (c : Bytes)
    (key v : Bytes) (M : Bytes → Option Bytes)
    (hc : fsRead fs a.filePath = some c) (hclen : c.length = a.offset)
    (hdecs : ∀ k off, lookupIdx a.index k = some off →
      ∃ e m, decodeFrom (c.drop off) = .ok e m ∧ e.key = k)
    (hprene : ∀ s ∈ pre, s.filePath ≠ a.filePath)
    (hget : ∀ k, getLoop fs k (a :: pre.reverse) = toRes (M k)) :
    ∀ k, getLoop (fsAppend fs a.filePath (entry.mk key v).Encode) k
        ((⟨a.filePath, a.offset + (entry.mk key v).Encode.length,
          setIdx a.index key a.offset⟩ : Segment) :: pre.reverse)
      = toRes (updMap M key v k) := by
  intro k
  have hfs1 : fsRead (fsAppend fs a.filePath (entry.mk key v).Encode) a.filePath
      = some (c ++ (entry.mk key v).Encode) := fsRead_append_eq _ hc
  by_cases hk : k = key
  · subst hk
    have hlook : lookupIdx
        ((⟨a.filePath, a.offset + (entry.mk k v).Encode.length,
          setIdx a.index k a.offset⟩ : Segment)).index k = some a.offset :=
      lookup_set_self _ _ _
    rw [getLoop_cons_some hlook]
    have hdecenc : decodeFrom ((c ++ (entry.mk k v).Encode).drop a.offset)
        = .ok (entry.mk k v) (entry.mk k v).Encode.length := by
      rw [← hclen, List.drop_left]
      exact decode_encode_nil _
    rw [segGet_eval (⟨a.filePath, a.offset + (entry.mk k v).Encode.length,
      setIdx a.index k a.offset⟩ : Segment) hfs1 hdecenc]
    simp [toRes, updMap]
  · have hlook : lookupIdx
        ((⟨a.filePath, a.offset + (entry.mk key v).Encode.length,
          setIdx a.index key a.offset⟩ : Segment)).index k = lookupIdx a.index k :=
      lookup_set_ne _ _ hk
    have hMk : toRes (updMap M key v k) = toRes (M k) := by
      simp [updMap, if_neg hk]
    rw [hMk]
    cases hold : lookupIdx a.index k with
    | some off =>
      obtain ⟨e, m, hdec, hek⟩ := hdecs k off hold
      have hoff : off < c.length := decode_drop_lt hdec
      have hdec' : decodeFrom ((c ++ (entry.mk key v).Encode).drop off) = .ok e m := by
        rw [List.drop_append_of_le_length (le_of_lt hoff)]
        exact decode_append _ hdec
      rw [getLoop_cons_some (hlook.trans hold),
        segGet_eval (⟨a.filePath, a.offset + (entry.mk key v).Encode.length,
          setIdx a.index key a.offset⟩ : Segment) hfs1 hdec']
      rw [← hget k, getLoop_cons_some hold, segGet_eval a hc hdec]
    | none =>
      rw [getLoop_cons_none (hlook.trans hold)]
      have hcongr : getLoop (fsAppend fs a.filePath (entry.mk key v).Encode) k pre.reverse
          = getLoop fs k pre.reverse :=
        getLoop_congr _ _
          (fun s hs => fsRead_append_ne fs _ (hprene s (List.mem_reverse.mp hs)))
      rw [hcongr, ← getLoop_cons_none hold, hget k]

/-- Updating the active index after the append keeps every indexed offset
decodable in the extended file. -/
theorem setIdx_decodable (a : Segment) (c : Bytes) (key v : Bytes)
    (hclen : c.length = a.offset)
    (hdecs : ∀ k off, lookupIdx a.index k = some off →
      ∃ e m, decodeFrom (c.drop off) = .ok e m ∧ e.key = k) :
    ∀ k off, lookupIdx (setIdx a.index key a.offset) k = some off →
      ∃ e m, decodeFrom ((c ++ (entry.mk key v).Encode).drop off) = .ok e m ∧
        e.key = k := by
  intro k off hlook
  by_cases hk : k = key
  · subst hk
    rw [lookup_set_self] at hlook
    injection hlook with hoff
    subst hoff
    refine ⟨entry.mk k v, (entry.mk k v).Encode.length, ?_, rfl⟩
    rw [← hclen, List.drop_left]
    exact decode_encode_nil _
  · rw [lookup_set_ne _ _ hk] at hlook
    obtain ⟨e, m, hdec, hek⟩ := hdecs k off hlook
    have hoff : off < c.length := decode_drop_lt hdec
    refine ⟨e, m, ?_, hek⟩
    rw [List.drop_append_of_le_length (le_of_lt hoff)]
    exact decode_append _ hdec

/-- One successful `Put` preserves the store invariant and updates the
abstract read map at exactly the written key. -/
theorem put_step (db : Db) (fs : FS) (key v : Bytes) (M : Bytes → Option Bytes)
    (hinv : StoreInv db fs) (hget : GetsAre db fs M) :
    StoreInv (Put db fs key v false 0).2.1 (Put db fs key v false 0).2.2 ∧
    GetsAre (Put db fs key v false 0).2.1 (Put db fs key v false 0).2.2
      (updMap M key v) := by
  obtain ⟨pre, a, hsegs, hpaths, hfresh, c, hc, hclen, hdecs⟩ := hinv
  have hlenseg : db.segments.length = pre.length + 1 := by rw [hsegs]; simp
  rw [hsegs] at hpaths
  rw [show (pre ++ [a]).length = pre.length + 1 by simp] at hpaths
  rw [hlenseg] at hfresh
  obtain ⟨hapath, hprepaths⟩ := paths_split hpaths
  have hprene := pre_path_ne hprepaths hapath
  have hlast : db.segments.getLast? = some a := by rw [hsegs]; simp
  have hdrop : db.segments.dropLast = pre := by rw [hsegs]; simp
  have hread1 : fsRead (fsAppend fs a.filePath (entry.mk key v).Encode) a.filePath
      = some (c ++ (entry.mk key v).Encode) := fsRead_append_eq _ hc
  have hget' : ∀ k, getLoop fs k (a :: pre.reverse) = toRes (M k) := by
    intro k
    have hg := hget k
    rw [Get, hsegs] at hg
    simpa [List.reverse_append] using hg
  have hput : Put db fs key v false 0 =
      if db.segmentSize ≤ (c ++ (entry.mk key v).Encode).length then
        (.ok (),
         ⟨(pre ++ [⟨a.filePath, a.offset + (entry.mk key v).Encode.length,
             setIdx a.index key a.offset⟩]) ++ [⟨segName (pre.length + 1), 0, []⟩],
           db.segmentSize⟩,
         fsCreate (fsAppend fs a.filePath (entry.mk key v).Encode)
           (segName (pre.length + 1)))
      else
        (.ok (),
         ⟨pre ++ [⟨a.filePath, a.offset + (entry.mk key v).Encode.length,
             setIdx a.index key a.offset⟩], db.segmentSize⟩,
         fsAppend fs a.filePath (entry.mk key v).Encode) := by
    rw [Put, hlast]
    simp only [Bool.false_eq_true, if_false, hdrop, createSegment,
      List.length_append, List.length_cons, List.length_nil, hread1,
      Option.getD_some]
  have hfreshne : ∀ j, pre.length + 1 ≤ j → segName j ≠ a.filePath := by
    intro j hj hcontra
    rw [hapath] at hcontra
    have := segName_inj hcontra
    omega
  by_cases hroll : db.segmentSize ≤ (c ++ (entry.mk key v).Encode).length
  · -- rollover: a fresh empty segment becomes active
    rw [hput, if_pos hroll]
    have hnfs1 : fsRead (fsAppend fs a.filePath (entry.mk key v).Encode)
        (segName (pre.length + 1)) = none := by
      rw [fsRead_append_ne fs _ (hfreshne _ (le_refl _))]
      exact hfresh _ (le_refl _)
    have hcreate : fsRead (fsCreate (fsAppend fs a.filePath (entry.mk key v).Encode)
        (segName (pre.length + 1))) (segName (pre.length + 1)) = some [] :=
      fsRead_create_absent hnfs1
    constructor
    · refine ⟨pre ++ [⟨a.filePath, a.offset + (entry.mk key v).Encode.length,
        setIdx a.index key a.offset⟩], ⟨segName (pre.length + 1), 0, []⟩, rfl, ?_, ?_, ?_⟩
      · simp only [List.map_append, List.length_append, List.length_cons,
          List.length_nil, List.map_cons, List.map_nil]
        rw [List.range_succ, List.range_succ]
        simp [hprepaths, hapath]
      · intro j hj
        simp only [List.length_append, List.length_cons, List.length_nil] at hj
        have hne1 : segName j ≠ segName (pre.length + 1) := by
          intro hcontra
          have := segName_inj hcontra
          omega
        rw [fsRead_create_ne _ hne1, fsRead_append_ne fs _ (hfreshne _ (by omega))]
        exact hfresh _ (by omega)
      · exact ⟨[], hcreate, rfl, by intro k off h; simp [lookupIdx] at h⟩
    · intro k
      rw [Get]
      simp only [List.reverse_append, List.reverse_cons, List.reverse_nil,
        List.nil_append, List.cons_append]
      rw [getLoop_cons_none (by simp [lookupIdx])]
      have hcongr : getLoop (fsCreate (fsAppend fs a.filePath (entry.mk key v).Encode)
            (segName (pre.length + 1))) k
            ((⟨a.filePath, a.offset + (entry.mk key v).Encode.length,
              setIdx a.index key a.offset⟩ : Segment) :: pre.reverse)
          = getLoop (fsAppend fs a.filePath (entry.mk key v).Encode) k
            ((⟨a.filePath, a.offset + (entry.mk key v).Encode.length,
              setIdx a.index key a.offset⟩ : Segment) :: pre.reverse) := by
        apply getLoop_congr
        intro s hs
        rcases List.mem_cons.mp hs with h1 | h1
        · subst h1
          apply fsRead_create_ne
          intro hcontra
          exact hfreshne _ (le_refl _) hcontra.symm
        · apply fsRead_create_ne
          intro hcontra
          have hmem : s.filePath ∈ (List.range pre.length).map segName := by
            rw [← hprepaths]
            exact List.mem_map_of_mem _ (List.mem_reverse.mp h1)
          obtain ⟨i, hi, hsi⟩ := List.mem_map.mp hmem
          rw [List.mem_range] at hi
          rw [← hsi] at hcontra
          have := segName_inj hcontra
          omega
      rw [hcongr]
      exact getLoop_put_core fs pre a c key v M hc hclen hdecs hprene hget' k
  · -- no rollover
    rw [hput, if_neg hroll]
    constructor
    · refine ⟨pre, ⟨a.filePath, a.offset + (entry.mk key v).Encode.length,
        setIdx a.index key a.offset⟩, rfl, ?_, ?_, ?_⟩
      · simp only [List.map_append, List.length_append, List.length_cons,
          List.length_nil, List.map_cons, List.map_nil]
        rw [List.range_succ]
        simp [hprepaths, hapath]
      · intro j hj
        simp only [List.length_append, List.length_cons, List.length_nil] at hj
        rw [fsRead_append_ne fs _ (hfreshne _ (by omega))]
        exact hfresh _ (by omega)
      · refine ⟨c ++ (entry.mk key v).Encode, hread1, by simp [hclen], ?_⟩
        exact setIdx_decodable a c key v hclen hdecs
    · intro k
      rw [Get]
      simp only [List.reverse_append, List.reverse_cons, List.reverse_nil,
        List.nil_append, List.cons_append]
      exact getLoop_put_core fs pre a c key v M hc hclen hdecs hprene hget' k

theorem updFold_lastPut :
    ∀ (ps : List (Bytes × Bytes)) (M : Bytes → Option Bytes) (k : Bytes),
      (ps.foldl (fun m kv => updMap m kv.1 kv.2) M) k =
        match lastPut ps k with
        | some v => some v
        | none => M k := by
  intro ps
  induction ps with
  | nil => intro M k; rfl
  | cons kv rest ih =>
    intro M k
    rw [List.foldl_cons, ih, lastPut]
    cases lastPut rest k with
    | some v => rfl
    | none =>
      dsimp only [updMap]
      by_cases hk : kv.1 = k
      · rw [if_pos hk, if_pos hk.symm]
      · rw [if_neg hk, if_neg (fun hc => hk hc.symm)]

theorem runPuts_sound :
    ∀ (ps : List (Bytes × Bytes)) (st : Db × FS) (M : Bytes → Option Bytes),
      StoreInv st.1 st.2 → GetsAre st.1 st.2 M →
      StoreInv (runPuts st ps).1 (runPuts st ps).2 ∧
      GetsAre (runPuts st ps).1 (runPuts st ps).2
        (ps.foldl (fun m kv => updMap m kv.1 kv.2) M) := by
  intro ps
  induction ps with
  | nil => intro st M h1 h2; exact ⟨h1, h2⟩
  | cons kv rest ih =>
    intro st M h1 h2
    have hstep := put_step st.1 st.2 kv.1 kv.2 M h1 h2
    exact ih (put1 st kv) _ hstep.1 hstep.2

/-- `Open` on an empty directory: a single empty active segment `segment-0`. -/
theorem open_empty (S : Nat) :
    Open [] S = .ok (⟨[⟨segName 0, 0, []⟩], S⟩, [(segName 0, [])]) := rfl

theorem storeInv_init (S : Nat) :
    StoreInv ⟨[⟨segName 0, 0, []⟩], S⟩ [(segName 0, [])] := by
  refine ⟨[], ⟨segName 0, 0, []⟩, rfl, rfl, ?_, [], ?_, rfl, ?_⟩
  · intro j hj
    simp only [List.length_cons, List.length_nil] at hj
    simp only [fsRead]
    rw [if_neg (show ¬segName 0 = segName j by
      intro hcontra
      have := segName_inj hcontra
      omega)]
  · simp [fsRead]
  · intro k off h
    simp [lookupIdx] at h

theorem getsAre_init (S : Nat) :
    GetsAre ⟨[⟨segName 0, 0, []⟩], S⟩ [(segName 0, [])] (fun _ => none) := by
  intro k
  rw [Get]
  simp [getLoop, lookupIdx, toRes]

/-- C4: within one session (store opened on an empty directory, any sequence
of successful puts, no merge, no restart), `Get(k)` returns the value of the
most recent `Put(k, ·)` and fails with `ErrNotFound` for keys never written —
for every segment-size threshold, i.e. across any pattern of rollovers. -/
theorem c4_last_write_wins (S : Nat) (ps : List (Bytes × Bytes)) (k : Bytes)
    (st0 : Db × FS) (h0 : Open [] S = .ok st0) :
    Get (runPuts st0 ps).1 (runPuts st0 ps).2 k =
      match lastPut ps k with
      | some v => Except.ok v
      | none => Except.error Err.notFound := by
  rw [open_empty S] at h0
  injection h0 with h0'
  subst h0'
  have hsound := runPuts_sound ps (⟨[⟨segName 0, 0, []⟩], S⟩, [(segName 0, [])])
    (fun _ => none) (storeInv_init S) (getsAre_init S)
  have hg := hsound.2 k
  rw [updFold_lastPut ps (fun _ => none) k] at hg
  cases hlp : lastPut ps k with
  | some v => rw [hlp] at hg; simpa [toRes] using hg
  | none => rw [hlp] at hg; simpa [toRes] using hg

/-- C4 witness: the spec's scenario S1 — `put a 1; put b 2; put a 3` gives
`get a = 3`, `get b = 2`, `get c = NOT_FOUND` (keys/values as single bytes,
`S = 1000000`). -/
theorem c4_last_write_wins_witness :
    Get (runPuts (⟨[⟨segName 0, 0, []⟩], 1000000⟩, [(segName 0, [])])
        [([97], [49]), ([98], [50]), ([97], [51])]).1
      (runPuts (⟨[⟨segName 0, 0, []⟩], 1000000⟩, [(segName 0, [])])
        [([97], [49]), ([98], [50]), ([97], [51])]).2 [97] = .ok [51] := by
  have h := c4_last_write_wins 1000000 [([97], [49]), ([98], [50]), ([97], [51])] [97]
    (⟨[⟨segName 0, 0, []⟩], 1000000⟩, [(segName 0, [])]) rfl
  rw [show lastPut [([97], [49]), ([98], [50]), ([97], [51])] [97] = some [51] by decide] at h
  exact h

end Datastore
